import Mathlib

/-!
Shallow embedding of the core of `psswrd` (src/psswrd/psswrd.py):
the `Ngram` class (table construction, backoff sampling, phrase
generation) and the `generate_password` template interpreter.

Python strings are embedded as `List Char`; the `defaultdict(Counter)`
table is embedded as an insertion-ordered association list, exactly the
structure Python iterates over.  Random primitives (`random.choice`,
`random.choices`) are embedded as total functions of an explicit natural
number drawn from a random stream: `choice` picks index `r % len`,
`choices` with weights picks by cumulative weight at position
`r % total`; properties are quantified over every possible stream, so
every concrete behaviour of the Python RNG is covered.  A call that
would raise (`choice([])`, pop from an empty list) returns `none`.
-/

/-- A `collections.Counter` over characters: an insertion-ordered list of
(character, count) pairs, as Python iterates it. -/
abbrev Counter := List (Char × Nat)

/-- Sum of all counts in a counter (the total weight used by
`random.choices(..., weights=ctr.values())`). -/
def counterTotal (ctr : Counter) : Nat :=
  (ctr.map Prod.snd).sum

/-- Total count recorded in a counter for character `c` (Python
`ctr[c]`, with absent keys counting 0). -/
def counterCount (ctr : Counter) (c : Char) : Nat :=
  ((ctr.filter (fun e => e.1 == c)).map Prod.snd).sum

/-- `ctr[k] += 1` on a `Counter`: increments the existing entry for `k`,
or appends a fresh entry with count 1 (Python Counter missing-key = 0). -/
def Counter.bump : Counter → Char → Counter
  | [], k => [(k, 1)]
  | (a, w) :: rest, k =>
    if a = k then (a, w + 1) :: rest else (a, w) :: Counter.bump rest k

/-- The n-gram table: `defaultdict(Counter)` keyed by context strings,
embedded as an insertion-ordered association list. -/
abbrev Table := List (List Char × Counter)

/-- First-match lookup `table[pre]` (raising `KeyError`, i.e. `none`,
when absent). -/
def Table.find? : Table → List Char → Option Counter
  | [], _ => none
  | (k, ctr) :: rest, key =>
    if k = key then some ctr else Table.find? rest key

/-- `table[pre][nxt] += 1` on a `defaultdict(Counter)`: bumps the counter
of the existing entry for `pre`, or appends a fresh entry holding the
singleton counter (defaultdict creates an empty Counter on first use). -/
def Table.bump : Table → List Char → Char → Table
  | [], key, nxt => [(key, Counter.bump [] nxt)]
  | (k, ctr) :: rest, key, nxt =>
    if k = key then (k, Counter.bump ctr nxt) :: rest
    else (k, ctr) :: Table.bump rest key nxt

/-- The inner `while pre:` loop of `Ngram.__init__`: bump
`table[pre][nxt]` for `pre`, then drop the leading character and repeat,
i.e. record `nxt` after every non-empty suffix of `pre`. -/
def bumpSuffixes : Table → List Char → Char → Table
  | t, [], _ => t
  | t, p :: rest, nxt => bumpSuffixes (Table.bump t (p :: rest) nxt) rest nxt

/-- The sliding window `corpus[i : i + n]`. -/
def windowAt (corpus : List Char) (n i : Nat) : List Char :=
  (corpus.drop i).take n

/-- The character `corpus[i + n]` following window `i` (total via a
default; every use inside the build loop is in range). -/
def nextAt (corpus : List Char) (n i : Nat) : Char :=
  corpus.getD (i + n) ' '

/-- One iteration of the `for i in range(...)` loop of `Ngram.__init__`. -/
def buildStep (corpus : List Char) (n : Nat) (t : Table) (i : Nat) : Table :=
  bumpSuffixes t (windowAt corpus n i) (nextAt corpus n i)

/-- The table built by `Ngram.__init__`: for each `i` in
`range(0, len(corpus) - n)`, record `corpus[i+n]` after every non-empty
suffix of `corpus[i : i+n]`. -/
def ngramTable (corpus : List Char) (n : Nat) : Table :=
  (List.range (corpus.length - n)).foldl (buildStep corpus n) []

/-- The `Ngram` object: the built table and the order `n`. -/
structure Ngram where
  table : Table
  n : Nat
  deriving Repr, DecidableEq

/-- `Ngram(corpus, n)`: builds the table; note the constructor raises
nothing — a too-short corpus or order 0 just yields an empty table. -/
def ngramInit (corpus : List Char) (n : Nat) : Ngram :=
  { table := ngramTable corpus n, n := n }

/-- `random.choice(l)` driven by a stream value `r`: uniform pick of
index `r % len(l)`; raises (`none`) on an empty list. -/
def pychoice {α : Type} (l : List α) (r : Nat) : Option α :=
  l[r % l.length]?

/-- Cumulative-weight walk underlying `random.choices(ks, weights=ws)`:
position `r` (already reduced modulo the total) selects the entry whose
cumulative weight range contains it. -/
def weightedPick : Counter → Nat → Option Char
  | [], _ => none
  | (c, w) :: rest, r => if r < w then some c else weightedPick rest (r - w)

/-- `random.choices(list(ctr.keys()), weights=ctr.values())[0]` driven by
a stream value `r`: a draw with probability proportional to count;
raises (`none`) when the total weight is zero (empty counter). -/
def weightedDraw (ctr : Counter) (r : Nat) : Option Char :=
  if counterTotal ctr = 0 then none else weightedPick ctr (r % counterTotal ctr)

/-- Python slice `pre[-n:]` (note `pre[-0:]` is the whole string). -/
def pySliceLast (l : List Char) (n : Nat) : List Char :=
  if n = 0 then l else l.drop (l.length - n)

/-- The `while pre:` lookup loop of `Ngram.__getitem__`: try an exact
table match; on a hit return the weighted draw at once (`some result`),
on a miss drop the leading character and retry; `none` means the context
was exhausted without any hit (fall through to the fallback). -/
def sampleLoop (table : Table) : List Char → Nat → Option (Option Char)
  | [], _ => none
  | p :: rest, r =>
    match Table.find? table (p :: rest) with
    | some ctr => some (weightedDraw ctr r)
    | none => sampleLoop table rest r

/-- `Ngram.__getitem__(pre)`: truncate to the last `n` characters, run
the backoff lookup loop, and if it exhausts fall back to a uniformly
chosen table key followed by a weighted draw from its counter.  `r1`
drives the first random call on either path, `r2` the fallback's second
call.  `none` is Python raising (`choice` on an empty table). -/
def Ngram.getitem (g : Ngram) (pre : List Char) (r1 r2 : Nat) : Option Char :=
  match sampleLoop g.table (pySliceLast pre g.n) r1 with
  | some res => res
  | none =>
    match pychoice (g.table.map Prod.fst) r1 with
    | none => none
    | some key =>
      match Table.find? g.table key with
      | some ctr => weightedDraw ctr r2
      | none => none

/-- The loop of `Ngram.phrase`: `k` iterations remain, `i` indexes the
random stream, `s` is the accumulated string; each step appends
`self[s]` to `s`. -/
def phraseLoop (g : Ngram) (rnd : Nat → Nat × Nat) :
    Nat → Nat → List Char → Option (List Char)
  | 0, _, s => some s
  | k + 1, i, s =>
    match g.getitem s (rnd i).1 (rnd i).2 with
    | none => none
    | some c => phraseLoop g rnd k (i + 1) (s ++ [c])

/-- `Ngram.phrase(length)`: start from the empty string and append
`self[s]` for `length` iterations. -/
def Ngram.phrase (g : Ngram) (length : Nat) (rnd : Nat → Nat × Nat) :
    Option (List Char) :=
  phraseLoop g rnd length 0 []

/-- `list.pop()`: removes and returns the LAST element; raises (`none`)
on an empty list. -/
def pyPop {α : Type} (l : List α) : Option (α × List α) :=
  match l.getLast? with
  | none => none
  | some a => some (a, l.dropLast)

/-- The digit pool `"0123456789"` used by the `d` directive. -/
def digitChars : List Char := "0123456789".toList

/-- The punctuation pool `r"!@#$%&*+-=?;"` used by the `p` directive. -/
def punctChars : List Char := "!@#$%&*+-=?;".toList

/-- The `for c in template:` loop of `generate_password`.  `ph` is the
REVERSED phrase (the code reverses it so `pop()` yields letters in
generation order); `i` indexes the random stream for the `m`/`d`/`p`
draws.  Matches the source's case-sensitive if/elif chain; any other
character is appended verbatim. -/
def genLoop (rt : Nat → Nat) : List Char → List Char → Nat → Option (List Char)
  | [], _, _ => some []
  | c :: tmpl, ph, i =>
    if c = 'u' then
      match pyPop ph with
      | none => none
      | some (pc, ph') =>
        (genLoop rt tmpl ph' (i + 1)).map (fun out => pc.toUpper :: out)
    else if c = 'l' then
      match pyPop ph with
      | none => none
      | some (pc, ph') =>
        (genLoop rt tmpl ph' (i + 1)).map (fun out => pc :: out)
    else if c = 'm' then
      match pyPop ph with
      | none => none
      | some (pc, ph') =>
        match pychoice [pc.toLower, pc.toUpper] (rt i) with
        | none => none
        | some mc => (genLoop rt tmpl ph' (i + 1)).map (fun out => mc :: out)
    else if c = 'd' then
      match pychoice digitChars (rt i) with
      | none => none
      | some dc => (genLoop rt tmpl ph (i + 1)).map (fun out => dc :: out)
    else if c = 'p' then
      match pychoice punctChars (rt i) with
      | none => none
      | some sc => (genLoop rt tmpl ph (i + 1)).map (fun out => sc :: out)
    else
      (genLoop rt tmpl ph (i + 1)).map (fun out => c :: out)

/-- `generate_password(ngram, template)`: draw a phrase of
`len(template)` letters, reverse it so `pop()` consumes it in generation
order, then interpret the template.  `rnd` drives the phrase's sampling
calls, `rt` the per-position template draws.  `none` is Python raising
(only possible when the phrase draw itself raises). -/
def generate_password (g : Ngram) (template : List Char)
    (rnd : Nat → Nat × Nat) (rt : Nat → Nat) : Option (List Char) :=
  match g.phrase template.length rnd with
  | none => none
  | some ph => genLoop rt template ph.reverse 0

/-- Observed count `table[key][c]` (0 when the key or character is
absent): the quantity the construction loop increments. -/
def tableCount (t : Table) (key : List Char) (c : Char) : Nat :=
  match Table.find? t key with
  | none => 0
  | some ctr => counterCount ctr c

/-- Well-formedness of a table: every stored counter has positive total
weight (so a weighted draw from it cannot raise). -/
def TableWF (t : Table) : Prop :=
  ∀ e ∈ t, 0 < counterTotal e.2

/-- Every character recorded in any counter of the table occurs in
`corpus`. -/
def TableChars (t : Table) (corpus : List Char) : Prop :=
  ∀ e ∈ t, ∀ x ∈ e.2, x.1 ∈ corpus

/-- Number of lookup iterations the `while pre:` loop of
`Ngram.__getitem__` performs (each iteration shortens the context by one
character unless it hits). -/
def sampleSteps (table : Table) : List Char → Nat
  | [] => 0
  | p :: rest =>
    match Table.find? table (p :: rest) with
    | some _ => 1
    | none => 1 + sampleSteps table rest

/-! ### Basic lemmas about the random primitives -/

theorem pychoice_eq_getD {α : Type} (l : List α) (r : Nat) (d : α) (h : l ≠ []) :
    pychoice l r = some (l.getD (r % l.length) d) := by
  have hlen : 0 < l.length := List.length_pos.mpr h
  have hlt : r % l.length < l.length := Nat.mod_lt _ hlen
  simp [pychoice, List.getElem?_eq_getElem hlt, List.getD_eq_getElem l d hlt]

theorem pychoice_mem {α : Type} {l : List α} {r : Nat} {a : α}
    (h : pychoice l r = some a) : a ∈ l := by
  unfold pychoice at h
  exact List.getElem?_mem h

theorem pychoice_eq_none_iff {α : Type} (l : List α) (r : Nat) :
    pychoice l r = none ↔ l = [] := by
  constructor
  · intro h
    by_contra hne
    rw [pychoice_eq_getD l r (l.get ⟨0, List.length_pos.mpr hne⟩) hne] at h
    exact Option.some_ne_none _ h
  · intro h; subst h; rfl

theorem pychoice_pair {α : Type} (a b : α) (r : Nat) :
    pychoice [a, b] r = some (if r % 2 = 0 then a else b) := by
  rcases Nat.mod_two_eq_zero_or_one r with h | h <;>
    simp [pychoice, List.length, h]

theorem pyPop_concat {α : Type} (l : List α) (a : α) :
    pyPop (l ++ [a]) = some (a, l) := by
  simp [pyPop, List.getLast?_concat, List.dropLast_concat]

theorem pyPop_of_ne_nil {α : Type} {l : List α} (h : l ≠ []) :
    ∃ a l', pyPop l = some (a, l') ∧ l'.length + 1 = l.length := by
  rcases (List.eq_nil_or_concat l) with rfl | ⟨l', a, rfl⟩
  · exact absurd rfl h
  · exact ⟨a, l', by simpa using pyPop_concat l' a, by simp⟩

theorem weightedPick_lt :
    ∀ (ctr : Counter) (r : Nat), r < counterTotal ctr →
      ∃ c, weightedPick ctr r = some c
  | [], r, h => by simp [counterTotal] at h
  | (a, w) :: rest, r, h => by
    by_cases hw : r < w
    · exact ⟨a, by simp [weightedPick, hw]⟩
    · have hrest : r - w < counterTotal rest := by
        simp [counterTotal] at h ⊢
        omega
      obtain ⟨c, hc⟩ := weightedPick_lt rest (r - w) hrest
      exact ⟨c, by simp [weightedPick, hw, hc]⟩

theorem weightedPick_mem :
    ∀ {ctr : Counter} {r : Nat} {c : Char}, weightedPick ctr r = some c →
      c ∈ ctr.map Prod.fst
  | [], r, c, h => by simp [weightedPick] at h
  | (a, w) :: rest, r, c, h => by
    by_cases hw : r < w
    · simp [weightedPick, hw] at h
      simp [h]
    · simp [weightedPick, hw] at h
      simpa using Or.inr (weightedPick_mem h)

theorem weightedDraw_pos {ctr : Counter} (h : 0 < counterTotal ctr) (r : Nat) :
    ∃ c, weightedDraw ctr r = some c ∧ c ∈ ctr.map Prod.fst := by
  have hne : counterTotal ctr ≠ 0 := Nat.pos_iff_ne_zero.mp h
  obtain ⟨c, hc⟩ := weightedPick_lt ctr (r % counterTotal ctr) (Nat.mod_lt _ h)
  exact ⟨c, by simp [weightedDraw, hne, hc], weightedPick_mem hc⟩

theorem weightedDraw_mem {ctr : Counter} {r : Nat} {c : Char}
    (h : weightedDraw ctr r = some c) : c ∈ ctr.map Prod.fst := by
  unfold weightedDraw at h
  by_cases h0 : counterTotal ctr = 0
  · simp [h0] at h
  · simp [h0] at h
    exact weightedPick_mem h

/-! ### Lemmas about counter and table updates -/

theorem counterTotal_bump :
    ∀ (ctr : Counter) (k : Char),
      counterTotal (Counter.bump ctr k) = counterTotal ctr + 1
  | [], k => by simp [Counter.bump, counterTotal]
  | (a, w) :: rest, k => by
    by_cases hak : a = k
    · simp [Counter.bump, hak, counterTotal]
      omega
    · simp [Counter.bump, hak, counterTotal] at *
      have := counterTotal_bump rest k
      simp [counterTotal] at this
      omega

theorem counterCount_bump :
    ∀ (ctr : Counter) (k c : Char),
      counterCount (Counter.bump ctr k) c =
        counterCount ctr c + (if c = k then 1 else 0)
  | [], k, c => by
    by_cases hck : c = k
    · subst hck; simp [Counter.bump, counterCount]
    · simp [Counter.bump, counterCount, beq_iff_eq, hck, Ne.symm hck]
  | (a, w) :: rest, k, c => by
    have ih := counterCount_bump rest k c
    by_cases hak : a = k
    · subst hak
      by_cases hca : a = c
      · subst hca
        simp [Counter.bump, counterCount, beq_iff_eq]
        omega
      · simp [Counter.bump, counterCount, beq_iff_eq, hca, Ne.symm hca]
    · by_cases hac : a = c
      · subst hac
        simp [Counter.bump, counterCount, beq_iff_eq, hak] at ih ⊢
        omega
      · simp [Counter.bump, counterCount, beq_iff_eq, hak, hac] at ih ⊢
        omega

theorem find?_mem :
    ∀ {t : Table} {key : List Char} {ctr : Counter},
      Table.find? t key = some ctr → (key, ctr) ∈ t
  | [], key, ctr, h => by simp [Table.find?] at h
  | (k, c) :: rest, key, ctr, h => by
    by_cases hk : k = key
    · subst hk
      simp [Table.find?] at h
      simp [h]
    · simp [Table.find?, hk] at h
      exact List.mem_cons_of_mem _ (find?_mem h)

theorem mem_keys_find? :
    ∀ {t : Table} {key : List Char}, key ∈ t.map Prod.fst →
      ∃ ctr, Table.find? t key = some ctr
  | [], key, h => by simp at h
  | (k, c) :: rest, key, h => by
    by_cases hk : k = key
    · exact ⟨c, by simp [Table.find?, hk]⟩
    · have hmem : key ∈ rest.map Prod.fst := by
        rcases List.mem_map.mp h with ⟨e, he, hekey⟩
        rcases List.mem_cons.mp he with rfl | he'
        · exact absurd hekey hk
        · exact List.mem_map.mpr ⟨e, he', hekey⟩
      obtain ⟨ctr, hctr⟩ := mem_keys_find? hmem
      exact ⟨ctr, by simp [Table.find?, hk, hctr]⟩

theorem tableCount_bump :
    ∀ (t : Table) (key : List Char) (nxt : Char) (key' : List Char) (c : Char),
      tableCount (Table.bump t key nxt) key' c =
        tableCount t key' c + (if key' = key ∧ c = nxt then 1 else 0)
  | [], key, nxt, key', c => by
    by_cases hk : key = key'
    · subst hk
      by_cases hc : c = nxt
      · subst hc
        simp [Table.bump, Table.find?, tableCount, counterCount, Counter.bump]
      · simp [Table.bump, Table.find?, tableCount, counterCount, Counter.bump,
              beq_iff_eq, hc, Ne.symm hc]
    · have hne : ¬ (key' = key ∧ c = nxt) := fun h => hk h.1.symm
      simp [Table.bump, Table.find?, tableCount, hk, hne]
  | (k, ctr) :: rest, key, nxt, key', c => by
    by_cases hk : k = key
    · subst hk
      by_cases hk' : k = key'
      · subst hk'
        simp [Table.bump, Table.find?, tableCount, counterCount_bump]
      · have hne : ¬ (key' = k ∧ c = nxt) := fun h => hk' h.1.symm
        simp [Table.bump, Table.find?, tableCount, hk', hne]
    · by_cases hk' : k = key'
      · subst hk'
        have hne : ¬ (k = key ∧ c = nxt) := fun h => hk h.1
        simp [Table.bump, Table.find?, tableCount, hk, hne]
      · have ih := tableCount_bump rest key nxt key' c
        simp [Table.bump, Table.find?, tableCount, hk, hk'] at ih ⊢
        exact ih

theorem tableCount_bumpSuffixes :
    ∀ (pre : List Char) (t : Table) (nxt : Char) (key : List Char) (c : Char),
      tableCount (bumpSuffixes t pre nxt) key c =
        tableCount t key c +
          (if key ≠ [] ∧ key <:+ pre ∧ c = nxt then 1 else 0)
  | [], t, nxt, key, c => by
    have h0 : (if key ≠ [] ∧ key <:+ ([] : List Char) ∧ c = nxt
        then 1 else 0) = 0 := by
      rw [if_neg]
      rintro ⟨hne, hsuf, -⟩
      exact hne (List.suffix_nil.mp hsuf)
    simp only [bumpSuffixes, h0, Nat.add_zero]
  | p :: rest, t, nxt, key, c => by
    have ih :=
      tableCount_bumpSuffixes rest (Table.bump t (p :: rest) nxt) nxt key c
    simp only [bumpSuffixes]
    rw [ih, tableCount_bump]
    have hovl : ¬ (key = p :: rest ∧ key <:+ rest) := by
      rintro ⟨rfl, hsuf⟩
      have := List.IsSuffix.length_le hsuf
      simp at this
    have hiff : (key <:+ p :: rest) ↔ (key = p :: rest ∨ key <:+ rest) :=
      List.suffix_cons_iff
    by_cases hA : key = p :: rest ∧ c = nxt
    · rw [if_pos hA]
      have hBf : ¬ (key ≠ [] ∧ key <:+ rest ∧ c = nxt) := by
        rintro ⟨-, hsuf, -⟩
        exact hovl ⟨hA.1, hsuf⟩
      rw [if_neg hBf]
      have hC : key ≠ [] ∧ key <:+ p :: rest ∧ c = nxt :=
        ⟨by simp [hA.1], by simp [hA.1], hA.2⟩
      rw [if_pos hC]
    · by_cases hB : key ≠ [] ∧ key <:+ rest ∧ c = nxt
      · rw [if_neg hA, if_pos hB]
        have hC : key ≠ [] ∧ key <:+ p :: rest ∧ c = nxt :=
          ⟨hB.1, hiff.mpr (Or.inr hB.2.1), hB.2.2⟩
        rw [if_pos hC]
      · rw [if_neg hA, if_neg hB]
        have hC : ¬ (key ≠ [] ∧ key <:+ p :: rest ∧ c = nxt) := by
          rintro ⟨hne, hsuf, hc⟩
          rcases hiff.mp hsuf with h1 | h2
          · exact hA ⟨h1, hc⟩
          · exact hB ⟨hne, h2, hc⟩
        rw [if_neg hC]

theorem tableCount_foldRange (corpus : List Char) (n : Nat) :
    ∀ (l : List Nat) (t : Table) (key : List Char) (c : Char),
      tableCount (l.foldl (buildStep corpus n) t) key c =
        tableCount t key c +
          l.countP (fun i =>
            !key.isEmpty && decide (key <:+ windowAt corpus n i) &&
              (c == nextAt corpus n i))
  | [], t, key, c => by simp
  | i :: l, t, key, c => by
    have ih := tableCount_foldRange corpus n l (buildStep corpus n t i) key c
    rw [List.foldl_cons, ih, List.countP_cons]
    unfold buildStep
    rw [tableCount_bumpSuffixes]
    have hcond :
        (if key ≠ [] ∧ key <:+ windowAt corpus n i ∧ c = nextAt corpus n i
          then 1 else 0) =
        (if (!key.isEmpty && decide (key <:+ windowAt corpus n i) &&
              (c == nextAt corpus n i)) = true then 1 else 0) := by
      by_cases h1 : key = []
      · simp [h1]
      · by_cases h2 : key <:+ windowAt corpus n i
        · by_cases h3 : c = nextAt corpus n i
          · simp [h1, h2, h3, List.isEmpty_iff]
          · simp [h1, h2, h3, List.isEmpty_iff]
        · simp [h1, h2, List.isEmpty_iff]
    rw [hcond]
    omega

/-! ### Provenance of table keys and counter characters -/

theorem mem_bump :
    ∀ {t : Table} {key : List Char} {nxt : Char} {e : List Char × Counter},
      e ∈ Table.bump t key nxt → e.1 = key ∨ e ∈ t
  | [], key, nxt, e, h => by
    simp [Table.bump] at h
    simp [h]
  | (k, ctr) :: rest, key, nxt, e, h => by
    by_cases hk : k = key
    · subst hk
      simp [Table.bump] at h
      rcases h with rfl | hmem
      · exact Or.inl rfl
      · exact Or.inr (List.mem_cons_of_mem _ hmem)
    · simp [Table.bump, hk] at h
      rcases h with rfl | hmem
      · exact Or.inr (List.mem_cons_self _ _)
      · rcases mem_bump hmem with h1 | h2
        · exact Or.inl h1
        · exact Or.inr (List.mem_cons_of_mem _ h2)

theorem mem_bumpSuffixes :
    ∀ {pre : List Char} {t : Table} {nxt : Char} {e : List Char × Counter},
      e ∈ bumpSuffixes t pre nxt → e ∈ t ∨ (e.1 ≠ [] ∧ e.1 <:+ pre)
  | [], _, _, _, h => Or.inl h
  | p :: rest, t, nxt, e, h => by
    have h' : e ∈ bumpSuffixes (Table.bump t (p :: rest) nxt) rest nxt := h
    rcases mem_bumpSuffixes h' with h1 | h2
    · rcases mem_bump h1 with hk | hm
      · refine Or.inr ⟨by simp [hk], ?_⟩
        rw [hk]
      · exact Or.inl hm
    · exact Or.inr ⟨h2.1, h2.2.trans (List.suffix_cons p rest)⟩

theorem mem_foldRange (corpus : List Char) (n : Nat) :
    ∀ (l : List Nat) (t : Table) (e : List Char × Counter),
      e ∈ l.foldl (buildStep corpus n) t →
        e ∈ t ∨ ∃ i ∈ l, e.1 ≠ [] ∧ e.1 <:+ windowAt corpus n i
  | [], _, _, h => Or.inl h
  | i :: l, t, e, h => by
    rcases mem_foldRange corpus n l (buildStep corpus n t i) e h with h1 | h2
    · rcases mem_bumpSuffixes h1 with ha | hb
      · exact Or.inl ha
      · exact Or.inr ⟨i, List.mem_cons_self _ _, hb⟩
    · obtain ⟨j, hj, hjj⟩ := h2
      exact Or.inr ⟨j, List.mem_cons_of_mem _ hj, hjj⟩

theorem windowAt_length_le (corpus : List Char) (n i : Nat) :
    (windowAt corpus n i).length ≤ n := by
  simp [windowAt]

theorem ngramTable_key_lengths {corpus : List Char} {n : Nat}
    {e : List Char × Counter} (h : e ∈ ngramTable corpus n) :
    1 ≤ e.1.length ∧ e.1.length ≤ n := by
  rcases mem_foldRange corpus n _ [] e h with h1 | h2
  · simp at h1
  · obtain ⟨i, -, hne, hsuf⟩ := h2
    constructor
    · have hpos := List.length_pos.mpr hne
      omega
    · exact le_trans (List.IsSuffix.length_le hsuf) (windowAt_length_le corpus n i)

/-! ### Well-formedness: every stored counter has positive total -/

theorem wf_bump {t : Table} (hwf : TableWF t) (key : List Char) (nxt : Char) :
    TableWF (Table.bump t key nxt) := by
  induction t with
  | nil =>
    intro e he
    simp [Table.bump] at he
    subst he
    simp [counterTotal, Counter.bump]
  | cons hd rest ih =>
    obtain ⟨k, ctr⟩ := hd
    by_cases hk : k = key
    · subst hk
      intro e he
      simp [Table.bump] at he
      rcases he with rfl | hmem
      · simp [counterTotal_bump]
      · exact hwf e (List.mem_cons_of_mem _ hmem)
    · intro e he
      simp only [Table.bump, if_neg hk] at he
      rcases List.mem_cons.mp he with rfl | hmem
      · exact hwf _ (List.mem_cons_self _ _)
      · have hwfrest : TableWF rest := fun e' he' =>
          hwf e' (List.mem_cons_of_mem _ he')
        exact ih hwfrest e hmem

theorem wf_bumpSuffixes :
    ∀ {pre : List Char} {t : Table}, TableWF t → ∀ (nxt : Char),
      TableWF (bumpSuffixes t pre nxt)
  | [], _, hwf, _ => hwf
  | p :: rest, t, hwf, nxt =>
    wf_bumpSuffixes (wf_bump hwf (p :: rest) nxt) nxt

theorem wf_foldRange (corpus : List Char) (n : Nat) :
    ∀ (l : List Nat) {t : Table}, TableWF t →
      TableWF (l.foldl (buildStep corpus n) t)
  | [], _, hwf => hwf
  | i :: l, _, hwf =>
    wf_foldRange corpus n l (wf_bumpSuffixes hwf (nextAt corpus n i))

theorem ngramTable_wf (corpus : List Char) (n : Nat) :
    TableWF (ngramTable corpus n) :=
  wf_foldRange corpus n _ (fun e he => by simp at he)

/-! ### Provenance of counter characters -/

theorem chars_counterBump {ctr : Counter} {k : Char} {x : Char × Nat}
    (h : x ∈ Counter.bump ctr k) : x.1 = k ∨ x ∈ ctr := by
  induction ctr with
  | nil =>
    simp [Counter.bump] at h
    simp [h]
  | cons hd rest ih =>
    obtain ⟨a, w⟩ := hd
    by_cases hak : a = k
    · subst hak
      simp [Counter.bump] at h
      rcases h with rfl | hmem
      · exact Or.inl rfl
      · exact Or.inr (List.mem_cons_of_mem _ hmem)
    · simp only [Counter.bump, if_neg hak] at h
      rcases List.mem_cons.mp h with rfl | hmem
      · exact Or.inr (List.mem_cons_self _ _)
      · rcases ih hmem with h1 | h2
        · exact Or.inl h1
        · exact Or.inr (List.mem_cons_of_mem _ h2)

theorem chars_bump {t : Table} {corpus : List Char}
    (hch : TableChars t corpus) {key : List Char} {nxt : Char}
    (hnxt : nxt ∈ corpus) : TableChars (Table.bump t key nxt) corpus := by
  induction t with
  | nil =>
    intro e he x hx
    simp [Table.bump] at he
    subst he
    simp [Counter.bump] at hx
    subst hx
    exact hnxt
  | cons hd rest ih =>
    obtain ⟨k, ctr⟩ := hd
    by_cases hk : k = key
    · subst hk
      intro e he x hx
      simp [Table.bump] at he
      rcases he with rfl | hmem
      · rcases chars_counterBump hx with h1 | h2
        · rw [h1]; exact hnxt
        · exact hch _ (List.mem_cons_self _ _) x h2
      · exact hch e (List.mem_cons_of_mem _ hmem) x hx
    · intro e he x hx
      simp only [Table.bump, if_neg hk] at he
      rcases List.mem_cons.mp he with rfl | hmem
      · exact hch _ (List.mem_cons_self _ _) x hx
      · have hchrest : TableChars rest corpus := fun e' he' =>
          hch e' (List.mem_cons_of_mem _ he')
        exact ih hchrest e hmem x hx

theorem chars_bumpSuffixes :
    ∀ {pre : List Char} {t : Table} {corpus : List Char},
      TableChars t corpus → ∀ {nxt : Char}, nxt ∈ corpus →
        TableChars (bumpSuffixes t pre nxt) corpus
  | [], _, _, hch, _, _ => hch
  | p :: rest, t, corpus, hch, nxt, hnxt =>
    chars_bumpSuffixes (chars_bump hch hnxt) hnxt

theorem chars_foldRange (corpus : List Char) (n : Nat) :
    ∀ (l : List Nat), (∀ i ∈ l, i + n < corpus.length) →
      ∀ {t : Table}, TableChars t corpus →
        TableChars (l.foldl (buildStep corpus n) t) corpus
  | [], _, _, hch => hch
  | i :: l, hl, t, hch => by
    have hnxt : nextAt corpus n i ∈ corpus := by
      have hi : i + n < corpus.length := hl i (List.mem_cons_self _ _)
      unfold nextAt
      rw [List.getD_eq_getElem corpus ' ' hi]
      exact List.getElem_mem hi
    exact chars_foldRange corpus n l
      (fun j hj => hl j (List.mem_cons_of_mem _ hj))
      (chars_bumpSuffixes hch hnxt)

theorem ngramTable_chars (corpus : List Char) (n : Nat) :
    TableChars (ngramTable corpus n) corpus := by
  apply chars_foldRange corpus n _ _ (fun e he => by simp at he)
  intro i hi
  rw [List.mem_range] at hi
  omega

/-! ### Emptiness of the built table -/

theorem bump_ne_nil (t : Table) (key : List Char) (nxt : Char) :
    Table.bump t key nxt ≠ [] := by
  cases t with
  | nil => simp [Table.bump]
  | cons hd rest =>
    obtain ⟨k, ctr⟩ := hd
    by_cases hk : k = key <;> simp [Table.bump, hk]

theorem bumpSuffixes_ne_nil :
    ∀ {pre : List Char} {t : Table}, t ≠ [] → ∀ (nxt : Char),
      bumpSuffixes t pre nxt ≠ []
  | [], _, ht, _ => ht
  | p :: rest, t, ht, nxt =>
    bumpSuffixes_ne_nil (bump_ne_nil t (p :: rest) nxt) nxt

theorem foldRange_ne_nil (corpus : List Char) (n : Nat) :
    ∀ (l : List Nat) {t : Table}, t ≠ [] →
      l.foldl (buildStep corpus n) t ≠ []
  | [], _, ht => ht
  | i :: l, _, ht =>
    foldRange_ne_nil corpus n l (bumpSuffixes_ne_nil ht (nextAt corpus n i))

theorem ngramTable_ne_nil {corpus : List Char} {n : Nat}
    (h1 : 1 ≤ n) (h2 : n < corpus.length) : ngramTable corpus n ≠ [] := by
  obtain ⟨m, rfl⟩ : ∃ m, n = m + 1 := ⟨n - 1, by omega⟩
  unfold ngramTable
  obtain ⟨k, hk⟩ : ∃ k, corpus.length - (m + 1) = k + 1 :=
    ⟨corpus.length - (m + 1) - 1, by omega⟩
  rw [hk, List.range_succ_eq_map, List.foldl_cons]
  apply foldRange_ne_nil
  unfold buildStep
  obtain ⟨c, cs, rfl⟩ : ∃ c cs, corpus = c :: cs := by
    cases corpus with
    | nil => simp at h2
    | cons c cs => exact ⟨c, cs, rfl⟩
  have hw : windowAt (c :: cs) (m + 1) 0 = c :: cs.take m := by
    simp [windowAt]
  rw [hw]
  simp only [bumpSuffixes]
  exact bumpSuffixes_ne_nil (bump_ne_nil _ _ _) _

theorem foldRange_zero (corpus : List Char) :
    ∀ (l : List Nat) (t : Table), l.foldl (buildStep corpus 0) t = t
  | [], _ => rfl
  | i :: l, t => by
    have hstep : buildStep corpus 0 t i = t := by
      unfold buildStep windowAt
      simp [bumpSuffixes]
    rw [List.foldl_cons, hstep, foldRange_zero corpus l t]

theorem ngramTable_empty_iff (corpus : List Char) (n : Nat) :
    ngramTable corpus n = [] ↔ corpus.length ≤ n ∨ n = 0 := by
  constructor
  · intro h
    by_contra hcon
    push_neg at hcon
    exact ngramTable_ne_nil (by omega) (by omega) h
  · rintro (h | rfl)
    · unfold ngramTable
      have h0 : corpus.length - n = 0 := by omega
      rw [h0]
      rfl
    · unfold ngramTable
      exact foldRange_zero corpus _ []

/-! ### Lemmas about the backoff sampling loop -/

theorem sampleLoop_some :
    ∀ {t : Table} {pre : List Char} {r : Nat} {res : Option Char},
      sampleLoop t pre r = some res →
        ∃ s ctr, Table.find? t s = some ctr ∧ res = weightedDraw ctr r
  | t, [], r, res, h => by simp [sampleLoop] at h
  | t, p :: rest, r, res, h => by
    rw [sampleLoop] at h
    cases hfind : Table.find? t (p :: rest) with
    | some ctr =>
      rw [hfind] at h
      exact ⟨p :: rest, ctr, hfind, by simpa using h.symm⟩
    | none =>
      rw [hfind] at h
      exact sampleLoop_some h

theorem sampleLoop_isSome_of_suffix :
    ∀ {t : Table} {pre s : List Char} {ctr : Counter} {r : Nat},
      s ≠ [] → s <:+ pre → Table.find? t s = some ctr →
        (sampleLoop t pre r).isSome
  | t, [], s, ctr, r, hne, hsuf, hfind => by
    exact absurd (List.suffix_nil.mp hsuf) hne
  | t, p :: rest, s, ctr, r, hne, hsuf, hfind => by
    rw [sampleLoop]
    cases hf : Table.find? t (p :: rest) with
    | some ctr' => simp
    | none =>
      rcases List.suffix_cons_iff.mp hsuf with rfl | htail
      · rw [hfind] at hf
        exact absurd hf (Option.some_ne_none _)
      · exact sampleLoop_isSome_of_suffix hne htail hfind

theorem sampleLoop_nil_table :
    ∀ (pre : List Char) (r : Nat), sampleLoop [] pre r = none
  | [], _ => rfl
  | p :: rest, r => by
    rw [sampleLoop]
    simp [Table.find?]
    exact sampleLoop_nil_table rest r

theorem sampleSteps_le :
    ∀ (t : Table) (pre : List Char), sampleSteps t pre ≤ pre.length
  | t, [] => Nat.le_refl 0
  | t, p :: rest => by
    rw [sampleSteps]
    cases hf : Table.find? t (p :: rest) with
    | some ctr => simp
    | none =>
      have := sampleSteps_le t rest
      simp
      omega

theorem pySliceLast_idem (l : List Char) (n : Nat) :
    pySliceLast (pySliceLast l n) n = pySliceLast l n := by
  by_cases hn : n = 0
  · simp [pySliceLast, hn]
  · simp only [pySliceLast, if_neg hn]
    have hdl : (l.drop (l.length - n)).length = l.length - (l.length - n) := by
      simp
    have h0 : (l.drop (l.length - n)).length - n = 0 := by omega
    rw [h0, List.drop_zero]

theorem pySliceLast_length_le (l : List Char) {n : Nat} (h : 1 ≤ n) :
    (pySliceLast l n).length ≤ n := by
  have hn : n ≠ 0 := by omega
  simp [pySliceLast, hn]
  omega

/-! ### Lemmas about `Ngram.__getitem__` -/

theorem getitem_slice (g : Ngram) (pre : List Char) (r1 r2 : Nat) :
    g.getitem pre r1 r2 = g.getitem (pySliceLast pre g.n) r1 r2 := by
  unfold Ngram.getitem
  rw [pySliceLast_idem]

theorem getitem_some {g : Ngram} (hwf : TableWF g.table)
    (hne : g.table ≠ []) (pre : List Char) (r1 r2 : Nat) :
    ∃ c, g.getitem pre r1 r2 = some c ∧
      ∀ corpus, TableChars g.table corpus → c ∈ corpus := by
  have hmemc : ∀ {ctr : Counter} {c : Char}, (ctrMem : ctr ∈ g.table.map Prod.snd) →
      c ∈ ctr.map Prod.fst → True := fun _ _ => trivial
  unfold Ngram.getitem
  cases hloop : sampleLoop g.table (pySliceLast pre g.n) r1 with
  | some res =>
    obtain ⟨s, ctr, hfind, hres⟩ := sampleLoop_some hloop
    have hmem := find?_mem hfind
    have hpos : 0 < counterTotal ctr := hwf _ hmem
    obtain ⟨c, hc, hcmem⟩ := weightedDraw_pos hpos r1
    refine ⟨c, by rw [hres, hc], ?_⟩
    intro corpus hch
    obtain ⟨x, hx, hx1⟩ := List.mem_map.mp hcmem
    rw [← hx1]
    exact hch _ hmem x hx
  | none =>
    have hkeys : g.table.map Prod.fst ≠ [] := by
      intro hk
      exact hne (List.map_eq_nil.mp hk)
    obtain ⟨key, hkey⟩ : ∃ key, pychoice (g.table.map Prod.fst) r1 = some key := by
      cases hp : pychoice (g.table.map Prod.fst) r1 with
      | none => exact absurd ((pychoice_eq_none_iff _ _).mp hp) hkeys
      | some key => exact ⟨key, rfl⟩
    have hkmem : key ∈ g.table.map Prod.fst := pychoice_mem hkey
    obtain ⟨ctr, hctr⟩ := mem_keys_find? hkmem
    have hmem := find?_mem hctr
    have hpos : 0 < counterTotal ctr := hwf _ hmem
    obtain ⟨c, hc, hcmem⟩ := weightedDraw_pos hpos r2
    refine ⟨c, by simp [hkey, hctr, hc], ?_⟩
    intro corpus hch
    obtain ⟨x, hx, hx1⟩ := List.mem_map.mp hcmem
    rw [← hx1]
    exact hch _ hmem x hx

theorem getitem_none_of_nil {g : Ngram} (h : g.table = [])
    (pre : List Char) (r1 r2 : Nat) : g.getitem pre r1 r2 = none := by
  unfold Ngram.getitem
  rw [h, sampleLoop_nil_table]
  simp [pychoice]

/-! ### Lemmas about `Ngram.phrase` -/

theorem phraseLoop_spec {g : Ngram} (hwf : TableWF g.table)
    (hne : g.table ≠ []) {corpus : List Char}
    (hch : TableChars g.table corpus) (rnd : Nat → Nat × Nat) :
    ∀ (k i : Nat) (s : List Char), (∀ c ∈ s, c ∈ corpus) →
      ∃ s', phraseLoop g rnd k i s = some s' ∧
        s'.length = s.length + k ∧ ∀ c ∈ s', c ∈ corpus
  | 0, i, s, hs => ⟨s, rfl, by omega, hs⟩
  | k + 1, i, s, hs => by
    obtain ⟨c, hc, hcmem⟩ := getitem_some hwf hne s (rnd i).1 (rnd i).2
    have hs' : ∀ x ∈ s ++ [c], x ∈ corpus := by
      intro x hx
      rcases List.mem_append.mp hx with h1 | h2
      · exact hs x h1
      · rw [List.mem_singleton.mp h2]
        exact hcmem corpus hch
    obtain ⟨s', hs'eq, hlen, hmem⟩ :=
      phraseLoop_spec hwf hne hch rnd k (i + 1) (s ++ [c]) hs'
    refine ⟨s', ?_, by simp at hlen; omega, hmem⟩
    simp only [phraseLoop, hc, hs'eq]

theorem phraseLoop_succ (g : Ngram) (rnd : Nat → Nat × Nat) :
    ∀ (k i : Nat) (s : List Char),
      phraseLoop g rnd (k + 1) i s =
        (phraseLoop g rnd k i s).bind (fun s' =>
          (g.getitem s' (rnd (i + k)).1 (rnd (i + k)).2).map
            (fun c => s' ++ [c]))
  | 0, i, s => by
    rw [phraseLoop]
    cases hg : g.getitem s (rnd i).1 (rnd i).2 <;>
      simp [phraseLoop, hg]
  | k + 1, i, s => by
    cases hg : g.getitem s (rnd i).1 (rnd i).2 with
    | none =>
      have hL : phraseLoop g rnd (k + 1 + 1) i s = none := by
        simp [phraseLoop, hg]
      have hR : phraseLoop g rnd (k + 1) i s = none := by
        simp [phraseLoop, hg]
      rw [hL, hR]
      rfl
    | some c =>
      have ih := phraseLoop_succ g rnd k (i + 1) (s ++ [c])
      have hL : phraseLoop g rnd (k + 1 + 1) i s =
          phraseLoop g rnd (k + 1) (i + 1) (s ++ [c]) := by
        simp [phraseLoop, hg]
      have hR : phraseLoop g rnd (k + 1) i s =
          phraseLoop g rnd k (i + 1) (s ++ [c]) := by
        simp [phraseLoop, hg]
      rw [hL, hR, ih]
      have harith : i + 1 + k = i + (k + 1) := by omega
      rw [harith]

theorem phraseLoop_none_of_nil {g : Ngram} (h : g.table = [])
    (rnd : Nat → Nat × Nat) (k i : Nat) (s : List Char) :
    phraseLoop g rnd (k + 1) i s = none := by
  rw [phraseLoop, getitem_none_of_nil h]

/-! ### Lemmas about the template interpreter loop -/

theorem genLoop_spec (rt : Nat → Nat) :
    ∀ (tmpl ph : List Char) (i : Nat), tmpl.length ≤ ph.length →
      ∃ out, genLoop rt tmpl ph i = some out ∧ out.length = tmpl.length
  | [], ph, i, h => ⟨[], rfl, rfl⟩
  | c :: tmpl, ph, i, h => by
    have hpne : ph ≠ [] := by
      intro hnil
      rw [hnil] at h
      simp at h
    obtain ⟨a, ph', hpop, hlen⟩ := pyPop_of_ne_nil hpne
    have hlen' : tmpl.length ≤ ph'.length := by
      simp at h
      omega
    by_cases hu : c = 'u'
    · obtain ⟨out, hout, holen⟩ := genLoop_spec rt tmpl ph' (i + 1) hlen'
      refine ⟨a.toUpper :: out, ?_, by simp [holen]⟩
      rw [genLoop]
      simp [hu, hpop, hout]
    · by_cases hl : c = 'l'
      · obtain ⟨out, hout, holen⟩ := genLoop_spec rt tmpl ph' (i + 1) hlen'
        refine ⟨a :: out, ?_, by simp [holen]⟩
        rw [genLoop]
        simp [hu, hl, hpop, hout]
      · by_cases hm : c = 'm'
        · obtain ⟨out, hout, holen⟩ := genLoop_spec rt tmpl ph' (i + 1) hlen'
          refine ⟨(if rt i % 2 = 0 then a.toLower else a.toUpper) :: out,
            ?_, by simp [holen]⟩
          rw [genLoop]
          simp [hu, hl, hm, hpop, pychoice_pair, hout]
        · by_cases hd : c = 'd'
          · obtain ⟨out, hout, holen⟩ := genLoop_spec rt tmpl ph (i + 1)
              (by simp at h ⊢; omega)
            refine ⟨digitChars.getD (rt i % 10) ' ' :: out, ?_, by simp [holen]⟩
            rw [genLoop]
            have hch : pychoice digitChars (rt i) =
                some (digitChars.getD (rt i % digitChars.length) ' ') :=
              pychoice_eq_getD _ _ _ (by decide)
            simp [hu, hl, hm, hd, hout, hch,
              show digitChars.length = 10 from rfl]
          · by_cases hp : c = 'p'
            · obtain ⟨out, hout, holen⟩ := genLoop_spec rt tmpl ph (i + 1)
                (by simp at h ⊢; omega)
              refine ⟨punctChars.getD (rt i % 12) ' ' :: out, ?_,
                by simp [holen]⟩
              rw [genLoop]
              have hch : pychoice punctChars (rt i) =
                  some (punctChars.getD (rt i % punctChars.length) ' ') :=
                pychoice_eq_getD _ _ _ (by decide)
              simp [hu, hl, hm, hd, hp, hout, hch,
                show punctChars.length = 12 from rfl]
            · obtain ⟨out, hout, holen⟩ := genLoop_spec rt tmpl ph (i + 1)
                (by simp at h ⊢; omega)
              refine ⟨c :: out, ?_, by simp [holen]⟩
              rw [genLoop]
              simp [hu, hl, hm, hd, hp, hout]

/-! ### Claim theorems -/

/-- C1: for every model built with `1 ≤ n < len(corpus)` and every
template (any characters, any length), `generate_password` succeeds
(no exception) and returns a string of exactly the template's length;
the empty template yields the empty string. -/
theorem C1_generate_password_total (corpus : List Char) (n : Nat)
    (h1 : 1 ≤ n) (h2 : n < corpus.length)
    (template : List Char) (rnd : Nat → Nat × Nat) (rt : Nat → Nat) :
    (∃ pwd, generate_password (ngramInit corpus n) template rnd rt = some pwd ∧
        pwd.length = template.length) ∧
    generate_password (ngramInit corpus n) [] rnd rt = some [] := by
  constructor
  · obtain ⟨s, hs, hslen, -⟩ :=
      phraseLoop_spec (g := ngramInit corpus n) (ngramTable_wf corpus n)
        (ngramTable_ne_nil h1 h2) (ngramTable_chars corpus n) rnd
        template.length 0 [] (by simp)
    obtain ⟨out, hout, holen⟩ := genLoop_spec rt template s.reverse 0
      (by simp; omega)
    refine ⟨out, ?_, holen⟩
    simp only [generate_password, Ngram.phrase, hs, hout]
  · rfl

/-- Witness for C1 at corpus `"abab"`, order 1, template `"uld-p"`. -/
theorem C1_witness :
    (1 ≤ 1 ∧ 1 < ("abab".toList).length) ∧
    ((∃ pwd, generate_password (ngramInit "abab".toList 1) "uld-p".toList
          (fun _ => (0, 0)) (fun _ => 0) = some pwd ∧
        pwd.length = ("uld-p".toList).length) ∧
      generate_password (ngramInit "abab".toList 1) [] (fun _ => (0, 0))
        (fun _ => 0) = some []) :=
  ⟨⟨by decide, by decide⟩,
    C1_generate_password_total "abab".toList 1 (by decide) (by decide)
      "uld-p".toList (fun _ => (0, 0)) (fun _ => 0)⟩

/-- C2: the built table records, for each window start `i` in
`range(len(corpus) - n)`, one increment of `table[suffix][next]` for
every non-empty suffix of the window `corpus[i:i+n]` with
`next = corpus[i+n]`: so `table[key][c]` equals the number of windows of
which `key` is a non-empty suffix followed by `c` (counts pooled
additively across windows — the backoff structure), and every key has
length between 1 and `n`. -/
theorem C2_table_construction (corpus : List Char) (n : Nat)
    (key : List Char) (c : Char) :
    tableCount (ngramTable corpus n) key c =
      (List.range (corpus.length - n)).countP (fun i =>
        !key.isEmpty && decide (key <:+ windowAt corpus n i) &&
          (c == nextAt corpus n i)) ∧
    ∀ e ∈ ngramTable corpus n, 1 ≤ e.1.length ∧ e.1.length ≤ n := by
  constructor
  · unfold ngramTable
    rw [tableCount_foldRange]
    simp [tableCount, Table.find?]
  · intro e he
    exact ngramTable_key_lengths he

/-- Witness for C2 at corpus `"abab"`, order 2, key `"b"`, next `'a'`:
the count equation holds and the key-length bound applies to the stored
entry `("b", {'a': 1})`. -/
theorem C2_witness :
    (tableCount (ngramTable "abab".toList 2) ['b'] 'a' =
      (List.range (("abab".toList).length - 2)).countP (fun i =>
        !(['b'] : List Char).isEmpty &&
          decide (['b'] <:+ windowAt "abab".toList 2 i) &&
          ('a' == nextAt "abab".toList 2 i))) ∧
    ((['b'], [('a', 1)]) ∈ ngramTable "abab".toList 2 ∧
      1 ≤ (['b'] : List Char).length ∧ (['b'] : List Char).length ≤ 2) :=
  ⟨(C2_table_construction "abab".toList 2 ['b'] 'a').1,
    by decide,
    (C2_table_construction "abab".toList 2 ['b'] 'a').2 (['b'], [('a', 1)])
      (by decide)⟩

/-- C3: `Sample` truncates the context to its last `n` characters; on an
exact table hit it immediately returns the weighted draw over the
matched counter (no further shortening); on a miss it drops the leading
character and retries; the empty context exhausts the loop; the loop
cannot exhaust while any non-empty suffix of the truncated context is a
table key; and only on exhaustion does it run the fallback (uniform key
pick then weighted draw). -/
theorem C3_sample_backoff (g : Ngram) (t : Table) (pre : List Char)
    (p : Char) (rest : List Char) (ctr : Counter) (r r1 r2 : Nat) :
    g.getitem pre r1 r2 = g.getitem (pySliceLast pre g.n) r1 r2 ∧
    (Table.find? t (p :: rest) = some ctr →
      sampleLoop t (p :: rest) r = some (weightedDraw ctr r)) ∧
    (Table.find? t (p :: rest) = none →
      sampleLoop t (p :: rest) r = sampleLoop t rest r) ∧
    sampleLoop t [] r = none ∧
    ((∃ s ctr', s ≠ [] ∧ s <:+ p :: rest ∧ Table.find? t s = some ctr') →
      (sampleLoop t (p :: rest) r).isSome) ∧
    (sampleLoop g.table (pySliceLast pre g.n) r1 = none →
      g.getitem pre r1 r2 =
        match pychoice (g.table.map Prod.fst) r1 with
        | none => none
        | some key =>
          match Table.find? g.table key with
          | some ctr' => weightedDraw ctr' r2
          | none => none) := by
  refine ⟨getitem_slice g pre r1 r2, ?_, ?_, rfl, ?_, ?_⟩
  · intro h
    rw [sampleLoop, h]
  · intro h
    rw [sampleLoop, h]
  · rintro ⟨s, ctr', hne, hsuf, hfind⟩
    exact sampleLoop_isSome_of_suffix hne hsuf hfind
  · intro h
    simp only [Ngram.getitem, h]

/-- Witness for C3 at the model of corpus `"abab"`, order 2: probing the
context `"cb"` (absent at length 2, present at length 1) hits the
shorter suffix `"b"` and the loop cannot exhaust, and a direct hit on
`"b"` returns its weighted draw. -/
theorem C3_witness :
    (Table.find? (ngramTable "abab".toList 2) ['b'] = some [('a', 1)] ∧
      sampleLoop (ngramTable "abab".toList 2) ['b'] 0 =
        some (weightedDraw [('a', 1)] 0)) ∧
    ((∃ s ctr', s ≠ [] ∧ s <:+ ['c', 'b'] ∧
        Table.find? (ngramTable "abab".toList 2) s = some ctr') ∧
      (sampleLoop (ngramTable "abab".toList 2) ['c', 'b'] 0).isSome) :=
  ⟨⟨by decide,
    (C3_sample_backoff (ngramInit "abab".toList 2) (ngramTable "abab".toList 2)
        [] 'b' [] [('a', 1)] 0 0 0).2.1 (by decide)⟩,
   ⟨⟨['b'], [('a', 1)], by decide, by decide, by decide⟩,
    (C3_sample_backoff (ngramInit "abab".toList 2) (ngramTable "abab".toList 2)
        [] 'c' ['b'] [('a', 1)] 0 0 0).2.2.2.2.1
      ⟨['b'], [('a', 1)], by decide, by decide, by decide⟩⟩⟩

/-- C4 counterexample: with corpus `"ab"` and order 5 (so
`len(corpus) ≤ order`), construction does NOT raise anything — it
completes and returns a model with an empty table — and the failure only
surfaces later, in a generation call (`Sample` raising at the fallback),
contradicting the claim that `EmptyCorpusError` is raised by
construction itself, immediately, never by later generation calls. -/
theorem C4_counterexample :
    ngramInit "ab".toList 5 = { table := [], n := 5 } ∧
    Ngram.getitem (ngramInit "ab".toList 5) [] 0 0 = none := by
  constructor
  · rfl
  · decide

/-- C4 (amended): the constructor raises no errors at all; for every
corpus and order it completes and returns a model, whose table is empty
exactly under the spec's error conditions (`len(corpus) ≤ order` or
`order < 1`, i.e. `order = 0` for a natural order) — the error the spec
assigns to construction actually surfaces only in later generation
calls. -/
theorem C4_no_construction_errors (corpus : List Char) (n : Nat) :
    (ngramInit corpus n).table = [] ↔ corpus.length ≤ n ∨ n = 0 :=
  ngramTable_empty_iff corpus n

/-- C5: at a template position holding `u`, `l` or `m`, the interpreter
consumes exactly the next unconsumed phrase letter in forward
(generation) order — here `pc`, the head of the remaining phrase, whose
reversal is what `pop()` acts on — and emits: for `u` its uppercase
form; for `l` the letter unchanged (hence still lowercase for a
lowercase corpus); for `m` its lowercase or uppercase form according to
the parity of the uniform draw (`choice` over the two-element list:
even picks lowercase, odd uppercase, each attained by half the draws). -/
theorem C5_letter_directives (rt : Nat → Nat) (tmpl phRest : List Char)
    (pc : Char) (i : Nat) :
    genLoop rt ('u' :: tmpl) ((pc :: phRest).reverse) i =
      (genLoop rt tmpl phRest.reverse (i + 1)).map
        (fun out => pc.toUpper :: out) ∧
    genLoop rt ('l' :: tmpl) ((pc :: phRest).reverse) i =
      (genLoop rt tmpl phRest.reverse (i + 1)).map (fun out => pc :: out) ∧
    genLoop rt ('m' :: tmpl) ((pc :: phRest).reverse) i =
      (genLoop rt tmpl phRest.reverse (i + 1)).map
        (fun out =>
          (if rt i % 2 = 0 then pc.toLower else pc.toUpper) :: out) := by
  have hpop : pyPop (phRest.reverse ++ [pc]) = some (pc, phRest.reverse) :=
    pyPop_concat _ _
  refine ⟨?_, ?_, ?_⟩ <;> rw [genLoop] <;> simp [hpop, pychoice_pair]

/-- C6: a `d` position emits the digit at index `r % 10` of
`"0123456789"` (every digit reached, uniformly over the draw) and a `p`
position emits the symbol at index `r % 12` of the fixed 12-character
set `!@#$%&*+-=?;`; neither consumes a phrase letter (the phrase list
passes through unchanged) and neither consults the model (the
interpreter takes no model argument at all). -/
theorem C6_digit_punct_directives (rt : Nat → Nat) (tmpl ph : List Char)
    (i : Nat) :
    genLoop rt ('d' :: tmpl) ph i =
      (genLoop rt tmpl ph (i + 1)).map
        (fun out => digitChars.getD (rt i % 10) ' ' :: out) ∧
    genLoop rt ('p' :: tmpl) ph i =
      (genLoop rt tmpl ph (i + 1)).map
        (fun out => punctChars.getD (rt i % 12) ' ' :: out) ∧
    digitChars.getD (rt i % 10) ' ' ∈ digitChars ∧
    punctChars.getD (rt i % 12) ' ' ∈ punctChars ∧
    digitChars = "0123456789".toList ∧
    punctChars = "!@#$%&*+-=?;".toList ∧
    digitChars.length = 10 ∧ punctChars.length = 12 := by
  have hd : pychoice digitChars (rt i) =
      some (digitChars.getD (rt i % digitChars.length) ' ') :=
    pychoice_eq_getD _ _ _ (by decide)
  have hp : pychoice punctChars (rt i) =
      some (punctChars.getD (rt i % punctChars.length) ' ') :=
    pychoice_eq_getD _ _ _ (by decide)
  refine ⟨?_, ?_, ?_, ?_, rfl, rfl, rfl, rfl⟩
  · rw [genLoop]
    simp [hd, show digitChars.length = 10 from rfl]
  · rw [genLoop]
    simp [hp, show punctChars.length = 12 from rfl]
  · have hlt : rt i % digitChars.length < digitChars.length :=
      Nat.mod_lt _ (by decide)
    rw [show (10 : Nat) = digitChars.length from rfl,
      List.getD_eq_getElem digitChars ' ' hlt]
    exact List.getElem_mem hlt
  · have hlt : rt i % punctChars.length < punctChars.length :=
      Nat.mod_lt _ (by decide)
    rw [show (12 : Nat) = punctChars.length from rfl,
      List.getD_eq_getElem punctChars ' ' hlt]
    exact List.getElem_mem hlt

/-- C7: any template character other than the five lowercase directives
is emitted verbatim, consuming no phrase letter (the phrase list passes
through unchanged); the uppercase letters `U L M D P` satisfy that
condition, so matching is case-sensitive; and on any built model the
template `"X-Y"` produces exactly `"X-Y"`. -/
theorem C7_literal_passthrough (rt : Nat → Nat) (tmpl ph : List Char)
    (i : Nat) (c : Char)
    (hc : ¬(c = 'u' ∨ c = 'l' ∨ c = 'm' ∨ c = 'd' ∨ c = 'p'))
    (corpus : List Char) (n : Nat) (h1 : 1 ≤ n) (h2 : n < corpus.length)
    (rnd : Nat → Nat × Nat) :
    genLoop rt (c :: tmpl) ph i =
      (genLoop rt tmpl ph (i + 1)).map (fun out => c :: out) ∧
    generate_password (ngramInit corpus n) "X-Y".toList rnd rt =
      some ("X-Y".toList) := by
  push_neg at hc
  obtain ⟨hu, hl, hm, hd, hp⟩ := hc
  constructor
  · rw [genLoop]
    simp [hu, hl, hm, hd, hp]
  · have hXY : ∀ (ph' : List Char) (j : Nat),
        genLoop rt "X-Y".toList ph' j = some ("X-Y".toList) := by
      intro ph' j
      simp [genLoop]
    obtain ⟨s, hs, hslen, -⟩ :=
      phraseLoop_spec (g := ngramInit corpus n) (ngramTable_wf corpus n)
        (ngramTable_ne_nil h1 h2) (ngramTable_chars corpus n) rnd
        ("X-Y".toList).length 0 [] (by simp)
    simp only [generate_password, Ngram.phrase, hs, hXY]

/-- Witness for C7: `'U'` is a literal (case-sensitive matching), and a
concrete built model maps `"X-Y"` to itself. -/
theorem C7_witness :
    (¬(('U' : Char) = 'u' ∨ ('U' : Char) = 'l' ∨ ('U' : Char) = 'm' ∨
        ('U' : Char) = 'd' ∨ ('U' : Char) = 'p')) ∧
    (1 ≤ 1 ∧ 1 < ("abab".toList).length) ∧
    genLoop (fun _ => 0) ['U'] ['a'] 0 =
      (genLoop (fun _ => 0) [] ['a'] 1).map (fun out => 'U' :: out) ∧
    generate_password (ngramInit "abab".toList 1) "X-Y".toList
      (fun _ => (0, 0)) (fun _ => 0) = some ("X-Y".toList) :=
  ⟨by decide, ⟨by decide, by decide⟩,
    (C7_literal_passthrough (fun _ => 0) [] ['a'] 0 'U' (by decide)
      "abab".toList 1 (by decide) (by decide) (fun _ => (0, 0))).1,
    (C7_literal_passthrough (fun _ => 0) [] ['a'] 0 'U' (by decide)
      "abab".toList 1 (by decide) (by decide) (fun _ => (0, 0))).2⟩

/-- C8: on a built model, `phrase(length)` succeeds with exactly
`length` characters, all drawn from the corpus alphabet; the phrase is
built by starting from the empty string and appending `Sample(s)` to the
accumulated `s` each iteration, the whole accumulated string being
passed as context (the step equation below), with `phrase(0) = ""`. -/
theorem C8_phrase_generation (corpus : List Char) (n : Nat)
    (h1 : 1 ≤ n) (h2 : n < corpus.length) (len : Nat)
    (rnd : Nat → Nat × Nat) :
    (∃ s, Ngram.phrase (ngramInit corpus n) len rnd = some s ∧
        s.length = len ∧ ∀ c ∈ s, c ∈ corpus) ∧
    Ngram.phrase (ngramInit corpus n) (len + 1) rnd =
      (Ngram.phrase (ngramInit corpus n) len rnd).bind (fun s =>
        (Ngram.getitem (ngramInit corpus n) s (rnd len).1 (rnd len).2).map
          (fun c => s ++ [c])) ∧
    Ngram.phrase (ngramInit corpus n) 0 rnd = some [] := by
  refine ⟨?_, ?_, rfl⟩
  · obtain ⟨s, hs, hslen, hmem⟩ :=
      phraseLoop_spec (g := ngramInit corpus n) (ngramTable_wf corpus n)
        (ngramTable_ne_nil h1 h2) (ngramTable_chars corpus n) rnd
        len 0 [] (by simp)
    exact ⟨s, hs, by simpa using hslen, hmem⟩
  · have h := phraseLoop_succ (ngramInit corpus n) rnd len 0 []
    simpa [Ngram.phrase] using h

/-- Witness for C8 at corpus `"abab"`, order 1, length 2. -/
theorem C8_witness :
    (1 ≤ 1 ∧ 1 < ("abab".toList).length) ∧
    ((∃ s, Ngram.phrase (ngramInit "abab".toList 1) 2 (fun _ => (0, 0)) =
          some s ∧ s.length = 2 ∧ ∀ c ∈ s, c ∈ "abab".toList) ∧
      Ngram.phrase (ngramInit "abab".toList 1) 3 (fun _ => (0, 0)) =
        (Ngram.phrase (ngramInit "abab".toList 1) 2 (fun _ => (0, 0))).bind
          (fun s => (Ngram.getitem (ngramInit "abab".toList 1) s 0 0).map
            (fun c => s ++ [c])) ∧
      Ngram.phrase (ngramInit "abab".toList 1) 0 (fun _ => (0, 0)) =
        some []) :=
  ⟨⟨by decide, by decide⟩,
    C8_phrase_generation "abab".toList 1 (by decide) (by decide) 2
      (fun _ => (0, 0))⟩

/-- C9: on a built model (`len(corpus) > n ≥ 1`), every `Sample` call
returns a character (it never raises), and the backoff loop performs at
most `n` lookup iterations on the truncated context — termination with
at most `n` shortening steps before the (single, non-recursive) fallback
draw. -/
theorem C9_sampling_terminates (corpus : List Char) (n : Nat)
    (h1 : 1 ≤ n) (h2 : n < corpus.length)
    (pre : List Char) (r1 r2 : Nat) :
    (∃ c, Ngram.getitem (ngramInit corpus n) pre r1 r2 = some c) ∧
    sampleSteps (ngramTable corpus n) (pySliceLast pre n) ≤ n := by
  constructor
  · obtain ⟨c, hc, -⟩ :=
      getitem_some (g := ngramInit corpus n) (ngramTable_wf corpus n)
        (ngramTable_ne_nil h1 h2) pre r1 r2
    exact ⟨c, hc⟩
  · exact le_trans (sampleSteps_le _ _) (pySliceLast_length_le pre h1)

/-- Witness for C9 at corpus `"abab"`, order 2, context `"zzz"`. -/
theorem C9_witness :
    (1 ≤ 2 ∧ 2 < ("abab".toList).length) ∧
    ((∃ c, Ngram.getitem (ngramInit "abab".toList 2) "zzz".toList 0 0 =
        some c) ∧
      sampleSteps (ngramTable "abab".toList 2)
        (pySliceLast "zzz".toList 2) ≤ 2) :=
  ⟨⟨by decide, by decide⟩,
    C9_sampling_terminates "abab".toList 2 (by decide) (by decide)
      "zzz".toList 0 0⟩

/-- C10: when `len(corpus) ≤ n`, construction still completes and
yields an empty table; on that model every `Sample` call fails (the
uniform fallback has no key to pick: `choice([])` raises), hence
`phrase` fails for any positive length and `generate_password` fails
for any template containing `u`, `l` or `m`; and in general the
fallback's `choice` over the key list fails exactly when the table is
empty. -/
theorem C10_degenerate_model (corpus : List Char) (n : Nat)
    (h : corpus.length ≤ n) (pre : List Char) (r1 r2 : Nat)
    (tmpl : List Char) (hm : 'u' ∈ tmpl ∨ 'l' ∈ tmpl ∨ 'm' ∈ tmpl)
    (rnd : Nat → Nat × Nat) (rt : Nat → Nat) (len : Nat) (hlen : 1 ≤ len)
    (t : Table) (r : Nat) :
    (ngramInit corpus n).table = [] ∧
    Ngram.getitem (ngramInit corpus n) pre r1 r2 = none ∧
    Ngram.phrase (ngramInit corpus n) len rnd = none ∧
    generate_password (ngramInit corpus n) tmpl rnd rt = none ∧
    (pychoice (t.map Prod.fst) r = none ↔ t = []) := by
  have htable : (ngramInit corpus n).table = [] :=
    (ngramTable_empty_iff corpus n).mpr (Or.inl h)
  have hphrase : ∀ (k : Nat), 1 ≤ k →
      Ngram.phrase (ngramInit corpus n) k rnd = none := by
    intro k hk
    obtain ⟨k', rfl⟩ : ∃ k', k = k' + 1 := ⟨k - 1, by omega⟩
    exact phraseLoop_none_of_nil htable rnd k' 0 []
  have htmpl : 1 ≤ tmpl.length := by
    rcases hm with hmem | hmem | hmem <;>
      exact List.length_pos.mpr (List.ne_nil_of_mem hmem)
  refine ⟨htable, getitem_none_of_nil htable pre r1 r2, hphrase len hlen,
    ?_, (pychoice_eq_none_iff _ _).trans List.map_eq_nil⟩
  simp only [generate_password, hphrase tmpl.length htmpl]

/-- Witness for C10 at corpus `"ab"`, order 5, template `"u"`. -/
theorem C10_witness :
    (("ab".toList).length ≤ 5 ∧
      ('u' ∈ ['u'] ∨ 'l' ∈ ['u'] ∨ 'm' ∈ ['u']) ∧ 1 ≤ 1) ∧
    ((ngramInit "ab".toList 5).table = [] ∧
      Ngram.getitem (ngramInit "ab".toList 5) [] 0 0 = none ∧
      Ngram.phrase (ngramInit "ab".toList 5) 1 (fun _ => (0, 0)) = none ∧
      generate_password (ngramInit "ab".toList 5) ['u'] (fun _ => (0, 0))
        (fun _ => 0) = none ∧
      (pychoice (([] : Table).map Prod.fst) 0 = none ↔ ([] : Table) = [])) :=
  ⟨⟨by decide, Or.inl (by decide), by decide⟩,
    C10_degenerate_model "ab".toList 5 (by decide) [] 0 0 ['u']
      (Or.inl (by decide)) (fun _ => (0, 0)) (fun _ => 0) 1 (by decide)
      [] 0⟩
